import Mathlib

/-!
Verification of the paper_token_maker repository: a shallow embedding of
`paper_token_maker/token.py` (the token compositor) and
`paper_token_maker/page.py` (the page layout engine), together with proofs
of the specification's claims about them.

Conventions of the embedding:
* Python floats are modelled by `ℚ` (exact arithmetic).
* Python `int(...)` truncation toward zero is `pyInt`.
* Lengths are stored in reportlab points, as in the source
  (`inch = 72` points); constructors multiply inch inputs by `inch`.
* Exceptions (`raise ValueError`) are modelled by `Except String`.
* PIL image operations are modelled by the geometry they produce
  (sizes, paste offsets, selected colors), which is what the claims are
  about; pixel contents of the source artwork are outside the model.
-/

/-- reportlab's `inch` unit: 72 points. -/
def inch : ℚ := 72

/-- Python `int(q)` for a float `q`: truncation toward zero. -/
def pyInt (q : ℚ) : ℤ := if 0 ≤ q then q.floor else q.ceil

/-- An RGB color, as Python's 3-tuple of ints. -/
abbrev Color := ℤ × ℤ × ℤ

/-- Either a single color or a list of colors to cycle through, the two
shapes accepted by `Token.__init__` for `border_colors` /
`background_colors` (duck-typed in the source). -/
abbrev ColorSpec := Color ⊕ List Color

/-- State stored by `Token.__init__` (token.py lines 46-56). Length fields
are in points: the constructor `Token.make` multiplies the inch-valued
arguments by `inch`, exactly as `__init__` does. -/
structure Token where
  frontImagePath : String
  backImagePath : Option String
  height : ℚ
  width : ℚ
  bottomMargin : ℚ
  borderThickness : ℚ
  mirrorBack : Bool
  copies : ℕ
  borderColors : ColorSpec
  backgroundColors : ColorSpec
  backgroundImagePaths : Option (String ⊕ List String)
  deriving DecidableEq, Repr

/-- `Token.__init__`: takes inches and stores points (token.py 46-56). -/
def Token.make (frontImagePath : String) (height width : ℚ)
    (backImagePath : Option String := none)
    (bottomMargin : ℚ := 1/2) (borderThickness : ℚ := 1/10)
    (borderColors : ColorSpec := .inl (255, 255, 255))
    (backgroundColors : ColorSpec := .inl (0, 0, 0))
    (backgroundImagePaths : Option (String ⊕ List String) := none)
    (mirrorBack : Bool := false) (copies : ℕ := 1) : Token :=
  { frontImagePath := frontImagePath
    backImagePath := backImagePath
    height := height * inch
    width := width * inch
    bottomMargin := bottomMargin * inch
    borderThickness := borderThickness * inch
    mirrorBack := mirrorBack
    copies := copies
    borderColors := borderColors
    backgroundColors := backgroundColors
    backgroundImagePaths := backgroundImagePaths }

/-- `Token.image_width` (token.py 70-73): `_width + _border_thickness * 2`,
in reportlab points. -/
def Token.imageWidth (t : Token) : ℚ :=
  t.width + t.borderThickness * 2

/-- `Token.image_height` (token.py 75-78):
`_height * 2 + _border_thickness * 4 + _bottom_margin * 2`, in points. -/
def Token.imageHeight (t : Token) : ℚ :=
  t.height * 2 + t.borderThickness * 4 + t.bottomMargin * 2

/-- `Token._border_color` (token.py 84-91).  A single color (a tuple in
Python) is returned as is: indexing it yields an int whose `len` raises,
so the bare `except` falls back to the whole tuple.  A list is indexed at
`token_index % len(list)`; an empty list raises (`% 0`, then `color[0]`),
modelled as `none`. -/
def Token.borderColor (t : Token) (tokenIndex : ℕ) : Option Color :=
  match t.borderColors with
  | .inl c => some c
  | .inr l => l[tokenIndex % l.length]?

/-- `Token._background_color` (token.py 93-100), same shape as
`Token.borderColor`. -/
def Token.backgroundColor (t : Token) (tokenIndex : ℕ) : Option Color :=
  match t.backgroundColors with
  | .inl c => some c
  | .inr l => l[tokenIndex % l.length]?

/-- The geometry of the composite produced by `Token.to_image`
(token.py 142-181): canvas size in pixels, the pixel size of each face,
the paste offsets of the back and front faces, and the border color the
canvas is filled with. -/
structure CompositeLayout where
  sizePx : ℤ × ℤ
  facePx : ℤ × ℤ
  backPos : ℤ × ℤ
  frontPos : ℤ × ℤ
  borderColor : Option Color
  deriving DecidableEq, Repr

/-- `Token.to_image` (token.py 142-181), modelled by the geometry of the
returned composite.  `dpi_per_inch = dpi / inch`; every pixel quantity is
obtained with Python `int(...)` truncation; the back face is pasted at
`(pixel_border, pixel_border + pixel_bottom_margin)` and the front face at
the same x with `y_front = y_back + pixel_border + back_height +
pixel_border`, the back height being the resized face height. -/
def Token.toImage (t : Token) (dpi : ℚ) (tokenIndex : ℕ := 0) : CompositeLayout :=
  let dpiPerInch := dpi / inch
  let pixelWidth := pyInt (t.width * dpiPerInch)
  let pixelHeight := pyInt (t.height * dpiPerInch)
  let pixelBorder := pyInt (t.borderThickness * dpiPerInch)
  let borderColor := t.borderColor tokenIndex
  let pixelBottomMargin := pyInt (t.bottomMargin * dpiPerInch)
  let yBack := pixelBorder + pixelBottomMargin
  let yFront := yBack + pixelBorder + pixelHeight + pixelBorder
  { sizePx := (pyInt (t.imageWidth * dpiPerInch), pyInt (t.imageHeight * dpiPerInch))
    facePx := (pixelWidth, pixelHeight)
    backPos := (pixelBorder, yBack)
    frontPos := (pixelBorder, yFront)
    borderColor := borderColor }

/-- The `Point` namedtuple of page.py (line 11). -/
structure Point where
  x : ℚ
  y : ℚ
  deriving DecidableEq, Repr

/-- One placement: a `(Point, Token)` pair as produced by `Page.arrange`. -/
abbrev Placement := Point × Token

/-- One page of the arrangement: an ordered list of placements. -/
abbrev PageLayout := List Placement

/-- An axis-aligned rectangle given by its corner and its width/height. -/
structure Rect where
  x : ℚ
  y : ℚ
  w : ℚ
  h : ℚ
  deriving DecidableEq, Repr

/-- The rectangle `(x, y, image_width, image_height)` covered by a
placement. -/
def Placement.rect (pl : Placement) : Rect :=
  { x := pl.1.x, y := pl.1.y, w := pl.2.imageWidth, h := pl.2.imageHeight }

/-- Two rectangles overlap when they share an interior point. -/
def Rect.overlaps (a b : Rect) : Prop :=
  a.x < b.x + b.w ∧ b.x < a.x + a.w ∧ a.y < b.y + b.h ∧ b.y < a.y + a.h

instance (a b : Rect) : Decidable (a.overlaps b) := by
  unfold Rect.overlaps; infer_instance

/-- No two placements of a page overlap. -/
def noOverlap (pg : PageLayout) : Prop :=
  pg.Pairwise (fun a b => ¬ a.rect.overlaps b.rect)

/-- State stored by `Page.__init__` (page.py 14-24): `pagesize` is in
points; `page_margin` is given in inches and stored multiplied by `inch`,
as the constructor `Page.make` does. -/
structure Page where
  dpi : ℚ
  pagesize : ℚ × ℚ
  pageMargin : ℚ
  maxPages : Option ℕ
  deriving DecidableEq, Repr

/-- US letter page size in points, reportlab's `letter`. -/
def letter : ℚ × ℚ := (612, 792)

/-- `Page.__init__` (page.py 14-24): stores `page_margin * inch`. -/
def Page.make (dpi : ℚ := 400) (pagesize : ℚ × ℚ := letter)
    (pageMargin : ℚ := 1/4) (maxPages : Option ℕ := none) : Page :=
  { dpi := dpi, pagesize := pagesize,
    pageMargin := pageMargin * inch, maxPages := maxPages }

/-- `Page.page_width` (page.py 26-28). -/
def Page.pageWidth (P : Page) : ℚ := P.pagesize.1

/-- `Page.page_height` (page.py 30-32). -/
def Page.pageHeight (P : Page) : ℚ := P.pagesize.2

/-- `Page.renderable_width` (page.py 34-36). -/
def Page.renderableWidth (P : Page) : ℚ := P.pageWidth - 2 * P.pageMargin

/-- `Page.renderable_height` (page.py 38-40). -/
def Page.renderableHeight (P : Page) : ℚ := P.pageHeight - 2 * P.pageMargin

/-- `Page.right_margin` (page.py 42-44). -/
def Page.rightMargin (P : Page) : ℚ := P.pageWidth - P.pageMargin

/-- `Page.bottom_margin` (page.py 46-48). -/
def Page.bottomMargin (P : Page) : ℚ := P.pageHeight - P.pageMargin

/-- The fitting condition checked by `Page.validate_token`. -/
def Page.tokenFits (P : Page) (t : Token) : Prop :=
  t.imageWidth ≤ P.renderableWidth ∧ t.imageHeight ≤ P.renderableHeight

instance (P : Page) (t : Token) : Decidable (P.tokenFits t) := by
  unfold Page.tokenFits; infer_instance

/-- `Page.validate_token` (page.py 50-54): raises `ValueError` when the
token's composite does not fit in the renderable area. -/
def Page.validateToken (P : Page) (t : Token) : Except String Unit :=
  if ¬ t.imageWidth ≤ P.renderableWidth ∨ ¬ t.imageHeight ≤ P.renderableHeight then
    .error "Token does not fit on a page of this size (size excludes page margins)."
  else
    .ok ()

/-- `Page.token_image_size_ordinal` (page.py 56-63): the pair
`(int(image_height / (0.01 * inch)), int(image_width / (0.01 * inch)))`. -/
def Page.tokenImageSizeOrdinal (P : Page) (t : Token) : ℤ × ℤ :=
  let width := pyInt (t.imageWidth / (1/100 * inch))
  let height := pyInt (t.imageHeight / (1/100 * inch))
  (height, width)

/-- Append `t` to the group keyed `key`, keeping first-insertion key order:
the association-list behaviour of the `token_groups` dict of
`Page.arrange` (page.py 78-83). -/
def groupInsert (gs : List ((ℤ × ℤ) × List Token)) (key : ℤ × ℤ) (t : Token) :
    List ((ℤ × ℤ) × List Token) :=
  match gs with
  | [] => [(key, [t])]
  | (k, g) :: rest =>
    if k = key then (k, g ++ [t]) :: rest else (k, g) :: groupInsert rest key t

/-- The `token_groups` dict of `Page.arrange` (page.py 78-83), as an
insertion-ordered association list. -/
def Page.tokenGroups (P : Page) (tokens : List Token) : List ((ℤ × ℤ) × List Token) :=
  tokens.foldl (fun gs t => groupInsert gs (P.tokenImageSizeOrdinal t) t) []

/-- Python's `<=` on int pairs: lexicographic, first component first. -/
def ordLE (a b : ℤ × ℤ) : Prop := a.1 < b.1 ∨ (a.1 = b.1 ∧ a.2 ≤ b.2)

/-- Strict lexicographic order on ordinal keys. -/
def ordLT (a b : ℤ × ℤ) : Prop := a.1 < b.1 ∨ (a.1 = b.1 ∧ a.2 < b.2)

instance : DecidableRel ordLE := fun a b => by unfold ordLE; infer_instance

instance : DecidableRel ordLT := fun a b => by unfold ordLT; infer_instance

/-- Comparison of groups by their ordinal key, used to model
`sorted(token_groups.keys())` (page.py 91). -/
def groupLE (a b : (ℤ × ℤ) × List Token) : Prop := ordLE a.1 b.1

instance : DecidableRel groupLE := fun a b => by unfold groupLE; infer_instance

instance : IsTotal ((ℤ × ℤ) × List Token) groupLE where
  total a b := by
    unfold groupLE ordLE
    rcases lt_trichotomy a.1.1 b.1.1 with h | h | h
    · exact Or.inl (Or.inl h)
    · rcases le_total a.1.2 b.1.2 with h2 | h2
      · exact Or.inl (Or.inr ⟨h, h2⟩)
      · exact Or.inr (Or.inr ⟨h.symm, h2⟩)
    · exact Or.inr (Or.inl h)

instance : IsTrans ((ℤ × ℤ) × List Token) groupLE where
  trans a b c hab hbc := by
    unfold groupLE ordLE at *
    rcases hab with h1 | ⟨h1, h1b⟩ <;> rcases hbc with h2 | ⟨h2, h2b⟩
    · exact Or.inl (h1.trans h2)
    · exact Or.inl (h2 ▸ h1)
    · exact Or.inl (h1 ▸ h2)
    · exact Or.inr ⟨h1.trans h2, h1b.trans h2b⟩

/-- The groups of `Page.arrange`, iterated in the order produced by
`sorted(token_groups.keys())` (page.py 91): ascending lexicographic key
order, via a stable sort of the association list. -/
def Page.sortedTokenGroups (P : Page) (tokens : List Token) :
    List ((ℤ × ℤ) × List Token) :=
  List.insertionSort groupLE (P.tokenGroups tokens)

/-- The stream of token instances in the order the nested loops of
`Page.arrange` (page.py 91-94) process them: groups in ascending key
order, tokens of a group in input order, each token repeated `copies`
times consecutively. -/
def Page.instanceStream (P : Page) (tokens : List Token) : List Token :=
  (P.sortedTokenGroups tokens).flatMap (fun kg => kg.2.flatMap (fun t => List.replicate t.copies t))

/-- The mutable loop state of `Page.arrange` (page.py 86-90):
accumulated completed pages, current page's placements, cursor, and the
row-height accumulator. -/
structure ArrangeState where
  pages : List PageLayout
  placements : PageLayout
  x : ℚ
  y : ℚ
  maxHeightInRow : ℚ
  deriving DecidableEq, Repr

/-- The initial state of the `Page.arrange` loop (page.py 86-90). -/
def Page.initState (P : Page) : ArrangeState :=
  { pages := [], placements := [], x := P.pageMargin, y := P.pageMargin,
    maxHeightInRow := 0 }

/-- The x cursor after the row-wrap check of `Page.arrange`
(page.py 96-98): reset to the left margin when placing at `x` would cross
the right margin, unchanged otherwise. -/
def Page.stepX (P : Page) (s : ArrangeState) (t : Token) : ℚ :=
  if s.x + t.imageWidth > P.rightMargin then P.pageMargin else s.x

/-- The y cursor after the row-wrap check of `Page.arrange`
(page.py 96-98): advanced by `max_height_in_row` on a wrap, unchanged
otherwise.  Note the accumulator itself is not touched by the wrap. -/
def Page.stepY (P : Page) (s : ArrangeState) (t : Token) : ℚ :=
  if s.x + t.imageWidth > P.rightMargin then s.y + s.maxHeightInRow else s.y

/-- The state after recording a placement on the current page
(page.py 109-112): append the placement at the post-wrap cursor, advance
`x` by the image width, accumulate `max_height_in_row`. -/
def Page.placeState (P : Page) (s : ArrangeState) (t : Token) : ArrangeState :=
  { pages := s.pages,
    placements := s.placements ++ [(⟨P.stepX s t, P.stepY s t⟩, t)],
    x := P.stepX s t + t.imageWidth,
    y := P.stepY s t,
    maxHeightInRow := max s.maxHeightInRow t.imageHeight }

/-- The state after closing the current page and placing the token at the
top-left of a fresh page (page.py 100, 105-112): cursor and accumulator
are reset to the page margin and 0 before the placement is recorded. -/
def Page.newPageState (P : Page) (s : ArrangeState) (t : Token) : ArrangeState :=
  { pages := s.pages ++ [s.placements],
    placements := [(⟨P.pageMargin, P.pageMargin⟩, t)],
    x := P.pageMargin + t.imageWidth,
    y := P.pageMargin,
    maxHeightInRow := max 0 t.imageHeight }

/-- One iteration of the innermost loop of `Page.arrange`
(page.py 95-112): validate, wrap the row if the token would cross the
right margin, close the page (and return early at the max-page cap,
modelled by `.inl`) if it would cross the bottom margin, then record the
placement and advance the cursor. -/
def Page.arrangeStep (P : Page) (t : Token) (s : ArrangeState) :
    Except String (List PageLayout ⊕ ArrangeState) :=
  match P.validateToken t with
  | .error e => .error e
  | .ok _ =>
    if P.stepY s t + t.imageHeight > P.bottomMargin then
      let pages₁ := s.pages ++ [s.placements]
      if P.maxPages = some pages₁.length then
        .ok (.inl pages₁)
      else
        .ok (.inr (P.newPageState s t))
    else
      .ok (.inr (P.placeState s t))

/-- The loop of `Page.arrange` over the instance stream, followed by the
final flush of a non-empty current page (page.py 114-116). -/
def Page.arrangeGo (P : Page) (s : ArrangeState) : List Token → Except String (List PageLayout)
  | [] => .ok (if s.placements.length > 0 then s.pages ++ [s.placements] else s.pages)
  | t :: rest =>
    match P.arrangeStep t s with
    | .error e => .error e
    | .ok (.inl pages) => .ok pages
    | .ok (.inr s₂) => P.arrangeGo s₂ rest

/-- `Page.arrange` (page.py 65-116). -/
def Page.arrange (P : Page) (tokens : List Token) : Except String (List PageLayout) :=
  P.arrangeGo P.initState (P.instanceStream tokens)

/-- The sequence of `token.to_image(dpi, token_index=count)` calls made by
`Page.render` (page.py 118-135), recorded as `(point, token, count)`:
`count` starts at 0 before the page loop and is incremented once per
placement, across all pages. -/
def Page.renderCalls (P : Page) (tokens : List Token) :
    Except String (List (Point × Token × ℕ)) :=
  match P.arrange tokens with
  | .error e => .error e
  | .ok arrangement =>
    .ok (arrangement.foldl
      (fun acc pageArrangement =>
        pageArrangement.foldl
          (fun acc₂ pl => (acc₂.1 ++ [(pl.1, pl.2, acc₂.2)], acc₂.2 + 1)) acc)
      (([], 0) : List (Point × Token × ℕ) × ℕ)).1

/-- Modelled from the spec for claim C2 only: a step identical to
`Page.arrangeStep` except that a row wrap also resets the row-height
accumulator to 0, as the spec's words describe — to be compared with the
source's `Page.arrangeStep`, which does not reset it on a wrap. -/
def Page.arrangeStepResetOnWrap (P : Page) (t : Token) (s : ArrangeState) :
    Except String (List PageLayout ⊕ ArrangeState) :=
  match P.validateToken t with
  | .error e => .error e
  | .ok _ =>
    let maxH₁ := if s.x + t.imageWidth > P.rightMargin then 0 else s.maxHeightInRow
    if P.stepY s t + t.imageHeight > P.bottomMargin then
      let pages₁ := s.pages ++ [s.placements]
      if P.maxPages = some pages₁.length then
        .ok (.inl pages₁)
      else
        .ok (.inr (P.newPageState s t))
    else
      .ok (.inr { pages := s.pages,
                  placements := s.placements ++ [(⟨P.stepX s t, P.stepY s t⟩, t)],
                  x := P.stepX s t + t.imageWidth,
                  y := P.stepY s t,
                  maxHeightInRow := max maxH₁ t.imageHeight })

/-- The arrange loop built on `Page.arrangeStepResetOnWrap` (spec-worded
variant for claim C2). -/
def Page.arrangeGoResetOnWrap (P : Page) (s : ArrangeState) :
    List Token → Except String (List PageLayout)
  | [] => .ok (if s.placements.length > 0 then s.pages ++ [s.placements] else s.pages)
  | t :: rest =>
    match P.arrangeStepResetOnWrap t s with
    | .error e => .error e
    | .ok (.inl pages) => .ok pages
    | .ok (.inr s₂) => P.arrangeGoResetOnWrap s₂ rest

/-- The spec-worded arrange (reset-on-wrap) for claim C2. -/
def Page.arrangeResetOnWrap (P : Page) (tokens : List Token) :
    Except String (List PageLayout) :=
  P.arrangeGoResetOnWrap P.initState (P.instanceStream tokens)

/-! ### Basic characterizations of the arrange loop -/

theorem validateToken_ok {P : Page} {t : Token} (h : P.tokenFits t) :
    P.validateToken t = .ok () := by
  unfold Page.validateToken
  rw [if_neg]
  push_neg
  exact ⟨h.1, h.2⟩

theorem validateToken_error {P : Page} {t : Token} (h : ¬ P.tokenFits t) :
    ∃ e, P.validateToken t = .error e := by
  unfold Page.validateToken
  rw [if_pos]
  · exact ⟨_, rfl⟩
  · unfold Page.tokenFits at h
    rcases not_and_or.mp h with h1 | h1
    · exact Or.inl h1
    · exact Or.inr h1

theorem arrangeStep_error {P : Page} {t : Token} (s : ArrangeState)
    (h : ¬ P.tokenFits t) : ∃ e, P.arrangeStep t s = .error e := by
  obtain ⟨e, he⟩ := validateToken_error h
  exact ⟨e, by unfold Page.arrangeStep; rw [he]⟩

theorem arrangeStep_place {P : Page} {t : Token} {s : ArrangeState}
    (hfit : P.tokenFits t)
    (hno : ¬ P.stepY s t + t.imageHeight > P.bottomMargin) :
    P.arrangeStep t s = .ok (.inr (P.placeState s t)) := by
  unfold Page.arrangeStep
  rw [validateToken_ok hfit]
  simp only [if_neg hno]

theorem arrangeStep_newPage {P : Page} {t : Token} {s : ArrangeState}
    (hfit : P.tokenFits t)
    (hov : P.stepY s t + t.imageHeight > P.bottomMargin)
    (hcap : ¬ P.maxPages = some (s.pages.length + 1)) :
    P.arrangeStep t s = .ok (.inr (P.newPageState s t)) := by
  unfold Page.arrangeStep
  rw [validateToken_ok hfit]
  simp only [if_pos hov, List.length_append, List.length_singleton]
  rw [if_neg hcap]

theorem arrangeStep_capped {P : Page} {t : Token} {s : ArrangeState}
    (hfit : P.tokenFits t)
    (hov : P.stepY s t + t.imageHeight > P.bottomMargin)
    (hcap : P.maxPages = some (s.pages.length + 1)) :
    P.arrangeStep t s = .ok (.inl (s.pages ++ [s.placements])) := by
  unfold Page.arrangeStep
  rw [validateToken_ok hfit]
  simp only [if_pos hov, List.length_append, List.length_singleton]
  rw [if_pos hcap]

theorem arrangeGo_nil (P : Page) (s : ArrangeState) :
    P.arrangeGo s [] =
      .ok (if s.placements.length > 0 then s.pages ++ [s.placements] else s.pages) := rfl

theorem arrangeGo_cons_error {P : Page} {t : Token} {s : ArrangeState} {e : String}
    (rest : List Token) (h : P.arrangeStep t s = .error e) :
    P.arrangeGo s (t :: rest) = .error e := by
  unfold Page.arrangeGo
  rw [h]

theorem arrangeGo_cons_inl {P : Page} {t : Token} {s : ArrangeState}
    {pages : List PageLayout} (rest : List Token)
    (h : P.arrangeStep t s = .ok (.inl pages)) :
    P.arrangeGo s (t :: rest) = .ok pages := by
  unfold Page.arrangeGo
  rw [h]

theorem arrangeGo_cons_inr {P : Page} {t : Token} {s : ArrangeState}
    {s₂ : ArrangeState} (rest : List Token)
    (h : P.arrangeStep t s = .ok (.inr s₂)) :
    P.arrangeGo s (t :: rest) = P.arrangeGo s₂ rest := by
  conv_lhs => rw [Page.arrangeGo]
  rw [h]

/-! ### The instance stream is a permutation of the expanded input -/

theorem groupInsert_flatMap (gs : List ((ℤ × ℤ) × List Token)) (key : ℤ × ℤ)
    (t : Token) :
    ((groupInsert gs key t).flatMap (fun kg => kg.2)).Perm
      (gs.flatMap (fun kg => kg.2) ++ [t]) := by
  induction gs with
  | nil => simp [groupInsert]
  | cons kg rest ih =>
    obtain ⟨k, g⟩ := kg
    by_cases hk : k = key
    · simp only [groupInsert, if_pos hk, List.flatMap_cons, List.append_assoc]
      exact List.Perm.append_left g (List.perm_append_comm)
    · simp only [groupInsert, if_neg hk, List.flatMap_cons, List.append_assoc]
      exact List.Perm.append_left g ih

theorem tokenGroups_append (P : Page) (l : List Token) (t : Token) :
    P.tokenGroups (l ++ [t]) =
      groupInsert (P.tokenGroups l) (P.tokenImageSizeOrdinal t) t := by
  unfold Page.tokenGroups
  rw [List.foldl_append]
  rfl

theorem tokenGroups_flatMap_perm (P : Page) (tokens : List Token) :
    ((P.tokenGroups tokens).flatMap (fun kg => kg.2)).Perm tokens := by
  induction tokens using List.reverseRecOn with
  | nil => rfl
  | append_singleton l t ih =>
    rw [tokenGroups_append]
    exact (groupInsert_flatMap _ _ _).trans (ih.append_right [t])

theorem sortedTokenGroups_perm (P : Page) (tokens : List Token) :
    (P.sortedTokenGroups tokens).Perm (P.tokenGroups tokens) :=
  List.perm_insertionSort groupLE (P.tokenGroups tokens)

/-- The stream of instances the arrange loop processes is the input list
with every token repeated `copies` times, up to order. -/
theorem instanceStream_perm (P : Page) (tokens : List Token) :
    (P.instanceStream tokens).Perm
      (tokens.flatMap (fun t => List.replicate t.copies t)) := by
  unfold Page.instanceStream
  have h1 := (sortedTokenGroups_perm P tokens).flatMap_right
    (fun kg => kg.2.flatMap (fun t => List.replicate t.copies t))
  refine h1.trans ?_
  have h2 : (P.tokenGroups tokens).flatMap
      (fun kg => kg.2.flatMap (fun t => List.replicate t.copies t)) =
      ((P.tokenGroups tokens).flatMap (fun kg => kg.2)).flatMap
        (fun t => List.replicate t.copies t) := by
    rw [List.flatMap_assoc]
  rw [h2]
  exact (tokenGroups_flatMap_perm P tokens).flatMap_right _

/-! ### Successful runs without a page cap place every instance in order -/

theorem arrangeGo_ok_of_valid (P : Page) (hcap : P.maxPages = none) :
    ∀ (l : List Token) (s : ArrangeState), (∀ t ∈ l, P.tokenFits t) →
    ∃ pages, P.arrangeGo s l = .ok pages ∧
      pages.flatten.map Prod.snd =
        (s.pages.flatten ++ s.placements).map Prod.snd ++ l := by
  intro l
  induction l with
  | nil =>
    intro s _
    refine ⟨_, arrangeGo_nil P s, ?_⟩
    by_cases hp : s.placements.length > 0
    · rw [if_pos hp]
      simp [List.flatten_append]
    · rw [if_neg hp]
      have hnil : s.placements = [] :=
        List.eq_nil_of_length_eq_zero (Nat.eq_zero_of_not_pos hp)
      simp [hnil]
  | cons t rest ih =>
    intro s hall
    have hfit : P.tokenFits t := hall t (by simp)
    have hrest : ∀ u ∈ rest, P.tokenFits u := fun u hu => hall u (by simp [hu])
    by_cases hov : P.stepY s t + t.imageHeight > P.bottomMargin
    · have hcap2 : ¬ P.maxPages = some (s.pages.length + 1) := by rw [hcap]; simp
      have hstep := arrangeStep_newPage hfit hov hcap2
      obtain ⟨pages, hgo, hmap⟩ := ih (P.newPageState s t) hrest
      refine ⟨pages, by rw [arrangeGo_cons_inr rest hstep]; exact hgo, ?_⟩
      rw [hmap]
      simp [Page.newPageState, List.flatten_append]
    · have hstep := arrangeStep_place hfit hov
      obtain ⟨pages, hgo, hmap⟩ := ih (P.placeState s t) hrest
      refine ⟨pages, by rw [arrangeGo_cons_inr rest hstep]; exact hgo, ?_⟩
      rw [hmap]
      simp [Page.placeState]

/-- With no page cap and only fitting tokens, `arrange` succeeds and the
placements, in page-then-placement order, carry exactly the instance
stream. -/
theorem arrange_ok_of_valid (P : Page) (tokens : List Token)
    (hcap : P.maxPages = none)
    (hfit : ∀ t ∈ tokens, P.tokenFits t) :
    ∃ pages, P.arrange tokens = .ok pages ∧
      pages.flatten.map Prod.snd = P.instanceStream tokens := by
  have hall : ∀ t ∈ P.instanceStream tokens, P.tokenFits t := by
    intro t ht
    have := (instanceStream_perm P tokens).mem_iff.mp ht
    simp only [List.mem_flatMap] at this
    obtain ⟨u, hu, hmem⟩ := this
    rw [List.eq_of_mem_replicate hmem]
    exact hfit u hu
  obtain ⟨pages, hgo, hmap⟩ :=
    arrangeGo_ok_of_valid P hcap (P.instanceStream tokens) P.initState hall
  refine ⟨pages, hgo, ?_⟩
  rw [hmap]
  simp [Page.initState]

/-! ### The geometric invariant of the arrange loop -/

/-- Invariant of the `Page.arrange` loop state: completed pages and the
current page are overlap-free, the row-height accumulator is nonnegative
and every placement of the current page lies above the line
`y + maxHeightInRow`; a placement of positive height either ends at or
above the cursor row or sits in the cursor row to the left of the
cursor. -/
structure ArrangeInv (P : Page) (s : ArrangeState) : Prop where
  pagesOk : ∀ pg ∈ s.pages, noOverlap pg
  curOk : noOverlap s.placements
  maxhNonneg : 0 ≤ s.maxHeightInRow
  yLe : ∀ pl ∈ s.placements, pl.1.y ≤ s.y
  yhLe : ∀ pl ∈ s.placements, pl.1.y + pl.2.imageHeight ≤ s.y + s.maxHeightInRow
  rowOk : ∀ pl ∈ s.placements, 0 < pl.2.imageHeight →
    pl.1.y + pl.2.imageHeight ≤ s.y ∨
      (pl.1.y = s.y ∧ pl.1.x + pl.2.imageWidth ≤ s.x)

theorem inv_init (P : Page) : ArrangeInv P P.initState := by
  constructor <;> simp [Page.initState, noOverlap]

theorem sy_le_stepY {P : Page} {s : ArrangeState} (t : Token)
    (h : 0 ≤ s.maxHeightInRow) : s.y ≤ P.stepY s t := by
  unfold Page.stepY
  split
  · linarith
  · exact le_refl _

/-- Every placement already on the current page is separated from the
post-wrap cursor: it either ends at or above the new cursor row, or sits
in the cursor row entirely to the left of the cursor. -/
theorem placed_separated {P : Page} {s : ArrangeState} (hInv : ArrangeInv P s)
    (t : Token) {pl : Placement} (hpl : pl ∈ s.placements) :
    pl.1.y + pl.2.imageHeight ≤ P.stepY s t ∨
      (pl.1.y = P.stepY s t ∧ pl.1.x + pl.2.imageWidth ≤ P.stepX s t) := by
  by_cases hw : s.x + t.imageWidth > P.rightMargin
  · left
    rw [Page.stepY, if_pos hw]
    exact hInv.yhLe pl hpl
  · rw [Page.stepY, if_neg hw, Page.stepX, if_neg hw]
    by_cases hh : 0 < pl.2.imageHeight
    · exact hInv.rowOk pl hpl hh
    · left
      have := hInv.yLe pl hpl
      push_neg at hh
      linarith

/-- The new placement of `placeState` does not overlap anything already on
the current page. -/
theorem place_no_overlap {P : Page} {s : ArrangeState} (hInv : ArrangeInv P s)
    (t : Token) {pl : Placement} (hpl : pl ∈ s.placements) :
    ¬ pl.rect.overlaps (Placement.rect (⟨P.stepX s t, P.stepY s t⟩, t)) := by
  intro hov
  obtain ⟨_, h2, _, h4⟩ := hov
  simp only [Placement.rect] at h2 h4
  rcases placed_separated hInv t hpl with hsep | ⟨_, hsep⟩
  · exact absurd h4 (not_lt.mpr hsep)
  · exact absurd h2 (not_lt.mpr hsep)

theorem inv_placeState {P : Page} {s : ArrangeState} {t : Token}
    (hInv : ArrangeInv P s) (hw : 0 ≤ t.imageWidth) (hh : 0 ≤ t.imageHeight) :
    ArrangeInv P (P.placeState s t) := by
  have hys : s.y ≤ P.stepY s t := sy_le_stepY t hInv.maxhNonneg
  have hmax : s.y + s.maxHeightInRow ≤ P.stepY s t + max s.maxHeightInRow t.imageHeight := by
    unfold Page.stepY
    split
    · have := le_max_right s.maxHeightInRow t.imageHeight
      have := hInv.maxhNonneg
      have := le_max_left s.maxHeightInRow t.imageHeight
      linarith [le_max_left s.maxHeightInRow t.imageHeight,
        le_max_right s.maxHeightInRow t.imageHeight]
    · have := le_max_left s.maxHeightInRow t.imageHeight
      linarith
  refine ⟨?_, ?_, ?_, ?_, ?_, ?_⟩
  · exact hInv.pagesOk
  · unfold noOverlap Page.placeState
    rw [List.pairwise_append]
    refine ⟨hInv.curOk, List.pairwise_singleton _ _, ?_⟩
    intro a ha b hb
    rw [List.mem_singleton] at hb
    subst hb
    exact place_no_overlap hInv t ha
  · exact le_trans hInv.maxhNonneg (le_max_left _ _)
  · intro pl hpl
    simp only [Page.placeState, List.mem_append, List.mem_singleton] at hpl
    rcases hpl with hpl | hpl
    · exact le_trans (hInv.yLe pl hpl) hys
    · subst hpl
      exact le_refl _
  · intro pl hpl
    simp only [Page.placeState, List.mem_append, List.mem_singleton] at hpl
    rcases hpl with hpl | hpl
    · exact le_trans (hInv.yhLe pl hpl) hmax
    · subst hpl
      simp only [Page.placeState]
      have := le_max_right s.maxHeightInRow t.imageHeight
      linarith
  · intro pl hpl hpos
    simp only [Page.placeState, List.mem_append, List.mem_singleton] at hpl
    rcases hpl with hpl | hpl
    · rcases placed_separated hInv t hpl with hsep | ⟨hy, hx⟩
      · exact Or.inl hsep
      · refine Or.inr ⟨hy, ?_⟩
        simp only [Page.placeState]
        linarith
    · subst hpl
      exact Or.inr ⟨rfl, le_refl _⟩

theorem inv_newPageState {P : Page} {s : ArrangeState} {t : Token}
    (hInv : ArrangeInv P s) (hw : 0 ≤ t.imageWidth) (hh : 0 ≤ t.imageHeight) :
    ArrangeInv P (P.newPageState s t) := by
  refine ⟨?_, ?_, ?_, ?_, ?_, ?_⟩
  · intro pg hpg
    simp only [Page.newPageState, List.mem_append, List.mem_singleton] at hpg
    rcases hpg with hpg | hpg
    · exact hInv.pagesOk pg hpg
    · subst hpg
      exact hInv.curOk
  · exact List.pairwise_singleton _ _
  · exact le_max_left _ _
  · intro pl hpl
    rw [Page.newPageState, List.mem_singleton] at hpl
    subst hpl
    exact le_refl _
  · intro pl hpl
    rw [Page.newPageState, List.mem_singleton] at hpl
    subst hpl
    simp only [Page.newPageState]
    have := le_max_right 0 t.imageHeight
    linarith
  · intro pl hpl _
    rw [Page.newPageState, List.mem_singleton] at hpl
    subst hpl
    exact Or.inr ⟨rfl, le_refl _⟩

/-- Any successful arrange run starting from an invariant state yields
only overlap-free pages. -/
theorem arrangeGo_noOverlap (P : Page) :
    ∀ (l : List Token) (s : ArrangeState), ArrangeInv P s →
    (∀ t ∈ l, 0 ≤ t.imageWidth ∧ 0 ≤ t.imageHeight) →
    ∀ pages, P.arrangeGo s l = .ok pages → ∀ pg ∈ pages, noOverlap pg := by
  intro l
  induction l with
  | nil =>
    intro s hInv _ pages hgo pg hpg
    rw [arrangeGo_nil] at hgo
    injection hgo with hgo
    subst hgo
    split at hpg
    · simp only [List.mem_append, List.mem_singleton] at hpg
      rcases hpg with hpg | hpg
      · exact hInv.pagesOk pg hpg
      · subst hpg
        exact hInv.curOk
    · exact hInv.pagesOk pg hpg
  | cons t rest ih =>
    intro s hInv hdim pages hgo pg hpg
    have hdt := hdim t (by simp)
    have hdrest : ∀ u ∈ rest, 0 ≤ u.imageWidth ∧ 0 ≤ u.imageHeight :=
      fun u hu => hdim u (by simp [hu])
    by_cases hfit : P.tokenFits t
    · by_cases hov : P.stepY s t + t.imageHeight > P.bottomMargin
      · by_cases hcap : P.maxPages = some (s.pages.length + 1)
        · rw [arrangeGo_cons_inl rest (arrangeStep_capped hfit hov hcap)] at hgo
          injection hgo with hgo
          subst hgo
          simp only [List.mem_append, List.mem_singleton] at hpg
          rcases hpg with hpg | hpg
          · exact hInv.pagesOk pg hpg
          · subst hpg
            exact hInv.curOk
        · rw [arrangeGo_cons_inr rest (arrangeStep_newPage hfit hov hcap)] at hgo
          exact ih _ (inv_newPageState hInv hdt.1 hdt.2) hdrest pages hgo pg hpg
      · rw [arrangeGo_cons_inr rest (arrangeStep_place hfit hov)] at hgo
        exact ih _ (inv_placeState hInv hdt.1 hdt.2) hdrest pages hgo pg hpg
    · obtain ⟨e, he⟩ := arrangeStep_error s hfit
      rw [arrangeGo_cons_error rest he] at hgo
      exact absurd hgo (by simp)

theorem mem_of_mem_instanceStream {P : Page} {tokens : List Token} {u : Token}
    (h : u ∈ P.instanceStream tokens) : u ∈ tokens := by
  have := (instanceStream_perm P tokens).mem_iff.mp h
  simp only [List.mem_flatMap] at this
  obtain ⟨v, hv, hmem⟩ := this
  rw [List.eq_of_mem_replicate hmem]
  exact hv

/-! ### The page cap truncates the uncapped arrangement -/

theorem arrangeGo_pages_grow (P : Page) (hcap : P.maxPages = none) :
    ∀ (l : List Token) (s : ArrangeState) (A : List PageLayout),
    P.arrangeGo s l = .ok A → ∃ rest, A = s.pages ++ rest := by
  intro l
  induction l with
  | nil =>
    intro s A hgo
    rw [arrangeGo_nil] at hgo
    injection hgo with hgo
    subst hgo
    split
    · exact ⟨[s.placements], rfl⟩
    · exact ⟨[], (List.append_nil _).symm⟩
  | cons t rest ih =>
    intro s A hgo
    by_cases hfit : P.tokenFits t
    · by_cases hov : P.stepY s t + t.imageHeight > P.bottomMargin
      · have hc : ¬ P.maxPages = some (s.pages.length + 1) := by rw [hcap]; simp
        rw [arrangeGo_cons_inr rest (arrangeStep_newPage hfit hov hc)] at hgo
        obtain ⟨r, hr⟩ := ih (P.newPageState s t) A hgo
        exact ⟨[s.placements] ++ r, by rw [hr]; simp [Page.newPageState]⟩
      · rw [arrangeGo_cons_inr rest (arrangeStep_place hfit hov)] at hgo
        exact ih (P.placeState s t) A hgo
    · obtain ⟨e, he⟩ := arrangeStep_error s hfit
      rw [arrangeGo_cons_error rest he] at hgo
      exact absurd hgo (by simp)

theorem arrangeGo_length_gt (P : Page) (hcap : P.maxPages = none) :
    ∀ (l : List Token) (s : ArrangeState) (A : List PageLayout),
    P.arrangeGo s l = .ok A → s.placements ≠ [] → s.pages.length < A.length := by
  intro l
  induction l with
  | nil =>
    intro s A hgo hne
    rw [arrangeGo_nil] at hgo
    injection hgo with hgo
    subst hgo
    rw [if_pos (by simpa [List.length_pos] using hne)]
    simp
  | cons t rest ih =>
    intro s A hgo hne
    by_cases hfit : P.tokenFits t
    · by_cases hov : P.stepY s t + t.imageHeight > P.bottomMargin
      · have hc : ¬ P.maxPages = some (s.pages.length + 1) := by rw [hcap]; simp
        rw [arrangeGo_cons_inr rest (arrangeStep_newPage hfit hov hc)] at hgo
        have := ih (P.newPageState s t) A hgo (by simp [Page.newPageState])
        simp only [Page.newPageState, List.length_append, List.length_singleton] at this
        omega
      · rw [arrangeGo_cons_inr rest (arrangeStep_place hfit hov)] at hgo
        exact ih (P.placeState s t) A hgo (by simp [Page.placeState])
    · obtain ⟨e, he⟩ := arrangeStep_error s hfit
      rw [arrangeGo_cons_error rest he] at hgo
      exact absurd hgo (by simp)

theorem arrangeGo_capped (P : Page) (hcap : P.maxPages = none) (m : ℕ) :
    ∀ (l : List Token) (s : ArrangeState) (A : List PageLayout),
    s.pages.length < m → P.arrangeGo s l = .ok A →
    ({ P with maxPages := some m } : Page).arrangeGo s l =
      .ok (if m < A.length then A.take m else A) := by
  intro l
  induction l with
  | nil =>
    intro s A hlt hgo
    rw [arrangeGo_nil] at hgo
    injection hgo with hgo
    have hlen : A.length ≤ s.pages.length + 1 := by
      subst hgo
      split <;> simp
    rw [if_neg (by omega)]
    rw [arrangeGo_nil]
    rw [hgo]
  | cons t rest ih =>
    intro s A hlt hgo
    by_cases hfit : P.tokenFits t
    · by_cases hov : P.stepY s t + t.imageHeight > P.bottomMargin
      · have hc : ¬ P.maxPages = some (s.pages.length + 1) := by rw [hcap]; simp
        rw [arrangeGo_cons_inr rest (arrangeStep_newPage hfit hov hc)] at hgo
        by_cases hm : s.pages.length + 1 = m
        · have hstep :
              ({ P with maxPages := some m } : Page).arrangeStep t s =
                .ok (.inl (s.pages ++ [s.placements])) :=
            arrangeStep_capped hfit hov (by rw [hm])
          rw [arrangeGo_cons_inl rest hstep]
          obtain ⟨r, hr⟩ := arrangeGo_pages_grow P hcap rest (P.newPageState s t) A hgo
          have hstrict : (P.newPageState s t).pages.length < A.length :=
            arrangeGo_length_gt P hcap rest (P.newPageState s t) A hgo
              (by simp [Page.newPageState])
          simp only [Page.newPageState, List.length_append, List.length_singleton] at hstrict hr
          rw [if_pos (by omega)]
          rw [hr]
          rw [show m = (s.pages ++ [s.placements]).length by simp; omega]
          rw [List.take_left]
        · have hstep :
              ({ P with maxPages := some m } : Page).arrangeStep t s =
                .ok (.inr (P.newPageState s t)) := by
            have := arrangeStep_newPage (P := { P with maxPages := some m })
              (t := t) (s := s) hfit hov (by simp; omega)
            exact this
          rw [arrangeGo_cons_inr rest hstep]
          exact ih (P.newPageState s t) A
            (by simp only [Page.newPageState, List.length_append, List.length_singleton]; omega)
            hgo
      · rw [arrangeGo_cons_inr rest (arrangeStep_place hfit hov)] at hgo
        have hstep :
            ({ P with maxPages := some m } : Page).arrangeStep t s =
              .ok (.inr (P.placeState s t)) :=
          arrangeStep_place (P := { P with maxPages := some m }) hfit hov
        rw [arrangeGo_cons_inr rest hstep]
        exact ih (P.placeState s t) A hlt hgo
    · obtain ⟨e, he⟩ := arrangeStep_error s hfit
      rw [arrangeGo_cons_error rest he] at hgo
      exact absurd hgo (by simp)

/-- **C1.** For every list of tokens in which each token's composite fits
the renderable area (physical dimensions nonnegative, as the data model
requires) and with no max-page cap, `Page.arrange` succeeds, the placed
tokens across all returned pages are exactly `copies` instances of every
input token (a permutation of the input expanded by its copy counts), and
no two placements on any returned page overlap; a configured cap `m ≥ 1`
that is not reached (the uncapped run needs at most `m` pages) returns
the same pages. -/
theorem arrange_places_every_copy_without_overlap (P : Page) (tokens : List Token)
    (hcap : P.maxPages = none)
    (hfit : ∀ t ∈ tokens, P.tokenFits t)
    (hdim : ∀ t ∈ tokens, 0 ≤ t.imageWidth ∧ 0 ≤ t.imageHeight) :
    ∃ pages, P.arrange tokens = .ok pages ∧
      (pages.flatten.map Prod.snd).Perm
        (tokens.flatMap (fun t => List.replicate t.copies t)) ∧
      (∀ pg ∈ pages, noOverlap pg) ∧
      (∀ m, 1 ≤ m → pages.length ≤ m →
        ({ P with maxPages := some m } : Page).arrange tokens = .ok pages) := by
  obtain ⟨pages, harr, hmap⟩ := arrange_ok_of_valid P tokens hcap hfit
  refine ⟨pages, harr, ?_, ?_, ?_⟩
  · rw [hmap]
    exact instanceStream_perm P tokens
  · exact arrangeGo_noOverlap P (P.instanceStream tokens) P.initState (inv_init P)
      (fun u hu => hdim u (mem_of_mem_instanceStream hu)) pages harr
  · intro m hm hlen
    have h := arrangeGo_capped P hcap m (P.instanceStream tokens) P.initState pages
      (by simp [Page.initState]; omega) harr
    rw [if_neg (by omega)] at h
    exact h

section ConcreteEvaluation

set_option allowUnsafeReducibility true

attribute [local semireducible] Rat.mul Rat.add Rat.sub Rat.div Rat.neg Rat.inv Rat.floor Rat.ceil Rat.blt

/-- A concrete page (all defaults: letter size, quarter-inch margin, no
page cap) and token list used to witness the arrange theorems. -/
def pageW1 : Page := Page.make

/-- Two concrete fitting tokens with several copies. -/
def tokensW1 : List Token :=
  [Token.make "front.png" 1 1 none (1/2) (1/10) (.inl (255, 255, 255)) (.inl (0, 0, 0)) none false 3,
   Token.make "other.png" (3/2) 1 none (1/2) (1/10) (.inl (255, 255, 255)) (.inl (0, 0, 0)) none false 2]

theorem arrange_places_every_copy_without_overlap_witness :
    (pageW1.maxPages = none ∧ (∀ t ∈ tokensW1, pageW1.tokenFits t) ∧
      (∀ t ∈ tokensW1, 0 ≤ t.imageWidth ∧ 0 ≤ t.imageHeight)) ∧
    (∃ pages, pageW1.arrange tokensW1 = .ok pages ∧
      (pages.flatten.map Prod.snd).Perm
        (tokensW1.flatMap (fun t => List.replicate t.copies t)) ∧
      (∀ pg ∈ pages, noOverlap pg) ∧
      (∀ m, 1 ≤ m → pages.length ≤ m →
        ({ pageW1 with maxPages := some m } : Page).arrange tokensW1 = .ok pages)) :=
  ⟨⟨rfl, by decide, by decide⟩,
    arrange_places_every_copy_without_overlap pageW1 tokensW1 rfl (by decide) (by decide)⟩

/-- **C6.** For every token constructed by `Token.__init__` from physical
inch measurements, the derived composite dimensions satisfy
`image_width = width + 2 * border_thickness` and
`image_height = 2 * height + 4 * border_thickness + 2 * bottom_margin`,
all in the same physical units (here: the inch inputs, scaled by `inch`
into points exactly as the constructor stores them). -/
theorem token_composite_dimensions (fp : String) (h w : ℚ) (bp : Option String)
    (bm bt : ℚ) (bc bg : ColorSpec) (bip : Option (String ⊕ List String))
    (mb : Bool) (c : ℕ) :
    (Token.make fp h w bp bm bt bc bg bip mb c).imageWidth = (w + 2 * bt) * inch ∧
    (Token.make fp h w bp bm bt bc bg bip mb c).imageHeight =
      (2 * h + 4 * bt + 2 * bm) * inch := by
  unfold Token.make Token.imageWidth Token.imageHeight
  constructor <;> ring

/-- **C7.** In the composite of `Token.to_image`, the back face is pasted
at pixel offset `(pixel_border, pixel_border + pixel_bottom_margin)`, the
front face at the same x with y equal to the back face's y plus border
plus the back face's pixel height plus border, and the vertical gap
between the two faces is exactly `2 * pixel_border`, the border thickness
in pixels, for every border thickness, token and dpi. -/
theorem toImage_face_offsets_and_crease_gap (t : Token) (dpi : ℚ) (i : ℕ) :
    (t.toImage dpi i).backPos =
      (pyInt (t.borderThickness * (dpi / inch)),
        pyInt (t.borderThickness * (dpi / inch)) + pyInt (t.bottomMargin * (dpi / inch))) ∧
    (t.toImage dpi i).frontPos.1 = (t.toImage dpi i).backPos.1 ∧
    (t.toImage dpi i).frontPos.2 =
      (t.toImage dpi i).backPos.2 + pyInt (t.borderThickness * (dpi / inch)) +
        (t.toImage dpi i).facePx.2 + pyInt (t.borderThickness * (dpi / inch)) ∧
    (t.toImage dpi i).frontPos.2 -
        ((t.toImage dpi i).backPos.2 + (t.toImage dpi i).facePx.2) =
      2 * pyInt (t.borderThickness * (dpi / inch)) := by
  refine ⟨rfl, rfl, rfl, ?_⟩
  show pyInt (t.borderThickness * (dpi / inch)) + pyInt (t.bottomMargin * (dpi / inch)) +
      pyInt (t.borderThickness * (dpi / inch)) + pyInt (t.height * (dpi / inch)) +
      pyInt (t.borderThickness * (dpi / inch)) -
      (pyInt (t.borderThickness * (dpi / inch)) + pyInt (t.bottomMargin * (dpi / inch)) +
        pyInt (t.height * (dpi / inch))) =
    2 * pyInt (t.borderThickness * (dpi / inch))
  ring

/-- **C8.** The border color used for render index `tokenIndex` is
`colors[tokenIndex mod len(colors)]` when a sequence of colors is
configured (nonempty, as a color sequence is), and the single color for
every index when one color is configured. -/
theorem border_color_cycles (t : Token) (dpi : ℚ) (i : ℕ) :
    (∀ (l : List Color) (hl : l ≠ []), t.borderColors = .inr l →
      (t.toImage dpi i).borderColor =
        some (l.get ⟨i % l.length, Nat.mod_lt i (List.length_pos.mpr hl)⟩)) ∧
    (∀ c : Color, t.borderColors = .inl c →
      (t.toImage dpi i).borderColor = some c) := by
  constructor
  · intro l hl hbc
    show t.borderColor i = _
    unfold Token.borderColor
    rw [hbc]
    exact List.getElem?_eq_getElem _
  · intro c hbc
    show t.borderColor i = _
    unfold Token.borderColor
    rw [hbc]

/-- A token configured with the two-color border sequence `[A, B]`
(`A = (1,2,3)`, `B = (4,5,6)`) and three copies, for the cycling
witness. -/
def tokenW8 : Token :=
  Token.make "front.png" 1 1 none (1/2) (1/10)
    (.inr [(1, 2, 3), (4, 5, 6)]) (.inl (0, 0, 0)) none false 3

theorem border_color_cycles_witness :
    (([((1:ℤ), (2:ℤ), (3:ℤ)), (4, 5, 6)] : List Color) ≠ [] ∧
      tokenW8.borderColors = .inr [(1, 2, 3), (4, 5, 6)]) ∧
    ((tokenW8.toImage 400 0).borderColor = some (1, 2, 3) ∧
      (tokenW8.toImage 400 1).borderColor = some (4, 5, 6) ∧
      (tokenW8.toImage 400 2).borderColor = some (1, 2, 3)) := by
  refine ⟨⟨by decide, rfl⟩, ?_, ?_, ?_⟩
  · have h := (border_color_cycles tokenW8 400 0).1 [(1, 2, 3), (4, 5, 6)] (by decide) rfl
    simpa using h
  · have h := (border_color_cycles tokenW8 400 1).1 [(1, 2, 3), (4, 5, 6)] (by decide) rfl
    simpa using h
  · have h := (border_color_cycles tokenW8 400 2).1 [(1, 2, 3), (4, 5, 6)] (by decide) rfl
    simpa using h

/-- A token one third of an inch wide with no border, whose composite
width in pixels at 400 dpi is not an integer number of pixels before
truncation. -/
def tokenC9 : Token :=
  Token.make "front.png" 1 (1/3) none 0 0 (.inl (255, 255, 255)) (.inl (0, 0, 0)) none false 1

/-- **C9 counterexample.** For `tokenC9` at 400 dpi the composite's pixel
width is `int(400/3) = 133`, not `image_width * dpi = 400/3`: the pixel
dimensions are not exactly the physical dimensions scaled by the dpi. -/
theorem toImage_size_not_exact_counterexample :
    ¬ (((tokenC9.toImage 400 0).sizePx.1 : ℚ) = tokenC9.imageWidth * 400 / inch ∧
      ((tokenC9.toImage 400 0).sizePx.2 : ℚ) = tokenC9.imageHeight * 400 / inch) := by
  decide

theorem pyInt_intCast_nonneg {n : ℤ} (hn : 0 ≤ n) : pyInt (n : ℚ) = n := by
  unfold pyInt
  rw [if_pos (by exact_mod_cast hn)]
  rw [show ((n : ℚ)).floor = ⌊(n : ℚ)⌋ from rfl]
  exact Int.floor_intCast n

/-- **C9 amended.** The image returned by `Token.to_image` has pixel
dimensions equal to the Python `int(...)` truncation of
`(image_width, image_height)` scaled by the dpi (pixels per physical
unit); whenever the scaled values are themselves nonnegative integers —
in particular for every integer dpi and dimensions in whole hundredths
compatible with it — the dimensions are exactly the scaled values. -/
theorem toImage_size_truncated (t : Token) (dpi : ℚ) (i : ℕ) :
    (t.toImage dpi i).sizePx =
      (pyInt (t.imageWidth * (dpi / inch)), pyInt (t.imageHeight * (dpi / inch))) ∧
    (∀ n : ℤ, 0 ≤ n → t.imageWidth * (dpi / inch) = n →
      ((t.toImage dpi i).sizePx.1 : ℚ) = t.imageWidth * (dpi / inch)) ∧
    (∀ n : ℤ, 0 ≤ n → t.imageHeight * (dpi / inch) = n →
      ((t.toImage dpi i).sizePx.2 : ℚ) = t.imageHeight * (dpi / inch)) := by
  refine ⟨rfl, ?_, ?_⟩
  · intro n hn he
    show ((pyInt (t.imageWidth * (dpi / inch)) : ℤ) : ℚ) = _
    rw [he, pyInt_intCast_nonneg hn]
  · intro n hn he
    show ((pyInt (t.imageHeight * (dpi / inch)) : ℤ) : ℚ) = _
    rw [he, pyInt_intCast_nonneg hn]

/-- The default one-inch-face token: at 10 dpi its composite is exactly
12 by 34 pixels. -/
def tokenW9 : Token := Token.make "front.png" 1 1

theorem toImage_size_truncated_witness :
    ((0 : ℤ) ≤ 12 ∧ tokenW9.imageWidth * (10 / inch) = ((12 : ℤ) : ℚ) ∧
      (0 : ℤ) ≤ 34 ∧ tokenW9.imageHeight * (10 / inch) = ((34 : ℤ) : ℚ)) ∧
    ((tokenW9.toImage 10 0).sizePx =
        (pyInt (tokenW9.imageWidth * (10 / inch)), pyInt (tokenW9.imageHeight * (10 / inch))) ∧
      ((tokenW9.toImage 10 0).sizePx.1 : ℚ) = tokenW9.imageWidth * (10 / inch) ∧
      ((tokenW9.toImage 10 0).sizePx.2 : ℚ) = tokenW9.imageHeight * (10 / inch)) := by
  have h := toImage_size_truncated tokenW9 10 0
  exact ⟨⟨by decide, by decide, by decide, by decide⟩,
    h.1, h.2.1 12 (by decide) (by decide), h.2.2 34 (by decide) (by decide)⟩

/-- A 2-point-wide page with no margin and no page cap, on which two
token sizes in the same 0.01-inch ordinal bucket trigger two row wraps. -/
def pageC2 : Page := { dpi := 400, pagesize := (2, 100), pageMargin := 0, maxPages := none }

/-- A 1-by-1/2 composite (width 1, height 1/4, no border or margin),
two copies. -/
def tokenC2a : Token :=
  { frontImagePath := "a.png", backImagePath := none, height := 1/4, width := 1,
    bottomMargin := 0, borderThickness := 0, mirrorBack := false, copies := 2,
    borderColors := .inl (255, 255, 255), backgroundColors := .inl (0, 0, 0),
    backgroundImagePaths := none }

/-- A 1-by-3/10 composite (width 1, height 3/20, no border or margin),
three copies; same size ordinal as `tokenC2a`. -/
def tokenC2b : Token :=
  { frontImagePath := "b.png", backImagePath := none, height := 3/20, width := 1,
    bottomMargin := 0, borderThickness := 0, mirrorBack := false, copies := 3,
    borderColors := .inl (255, 255, 255), backgroundColors := .inl (0, 0, 0),
    backgroundImagePaths := none }

/-- **C2 counterexample.** On `pageC2` with `[tokenC2a, tokenC2b]` the
source's `arrange` differs from the spec-worded variant that resets the
row-height accumulator on a row wrap: after the first wrap the
accumulator keeps the first row's height 1/2, so the second wrap places
the fifth instance at `y = 1`, while the reset variant places it at
`y = 4/5`. -/
theorem arrange_wrap_reset_counterexample :
    (pageC2.arrange [tokenC2a, tokenC2b]).toOption ≠
      (pageC2.arrangeResetOnWrap [tokenC2a, tokenC2b]).toOption := by
  decide

/-- **C2 amended.** When placing at the current x cursor would exceed the
right margin and the wrapped row still fits on the page, `Page.arrange`
wraps: `y` advances by `max_height_in_row` and `x` resets to the left
margin — but `max_height_in_row` is not reset to 0 by the wrap: it keeps
accumulating (the new value is the max of the old accumulator and the
placed token's height) and is reset only when a new page is started. -/
theorem arrange_wrap_keeps_row_height (P : Page) (s : ArrangeState) (t : Token)
    (hfit : P.tokenFits t)
    (hwrap : s.x + t.imageWidth > P.rightMargin)
    (hnof : ¬ s.y + s.maxHeightInRow + t.imageHeight > P.bottomMargin) :
    P.arrangeStep t s = .ok (.inr
      { pages := s.pages,
        placements := s.placements ++ [(⟨P.pageMargin, s.y + s.maxHeightInRow⟩, t)],
        x := P.pageMargin + t.imageWidth,
        y := s.y + s.maxHeightInRow,
        maxHeightInRow := max s.maxHeightInRow t.imageHeight }) := by
  have hx : P.stepX s t = P.pageMargin := by rw [Page.stepX, if_pos hwrap]
  have hy : P.stepY s t = s.y + s.maxHeightInRow := by rw [Page.stepY, if_pos hwrap]
  have h := arrangeStep_place hfit (by rw [hy]; exact hnof)
  rw [h, Page.placeState, hx, hy]

/-- The wrap state of the `pageC2` run right before the third
`tokenC2b` instance is placed: cursor at `(2, 1/2)`, accumulator 1/2. -/
def stateW2 : ArrangeState :=
  { pages := [],
    placements :=
      [(⟨0, 0⟩, tokenC2a), (⟨1, 0⟩, tokenC2a), (⟨0, 1/2⟩, tokenC2b), (⟨1, 1/2⟩, tokenC2b)],
    x := 2, y := 1/2, maxHeightInRow := 1/2 }

theorem arrange_wrap_keeps_row_height_witness :
    (pageC2.tokenFits tokenC2b ∧
      stateW2.x + tokenC2b.imageWidth > pageC2.rightMargin ∧
      ¬ stateW2.y + stateW2.maxHeightInRow + tokenC2b.imageHeight > pageC2.bottomMargin) ∧
    pageC2.arrangeStep tokenC2b stateW2 = .ok (.inr
      { pages := stateW2.pages,
        placements := stateW2.placements ++
          [(⟨pageC2.pageMargin, stateW2.y + stateW2.maxHeightInRow⟩, tokenC2b)],
        x := pageC2.pageMargin + tokenC2b.imageWidth,
        y := stateW2.y + stateW2.maxHeightInRow,
        maxHeightInRow := max stateW2.maxHeightInRow tokenC2b.imageHeight }) :=
  ⟨⟨by decide, by decide, by decide⟩,
    arrange_wrap_keeps_row_height pageC2 stateW2 tokenC2b (by decide) (by decide) (by decide)⟩

/-- Every placement in a successful arrange result carries a token that
passed validation, i.e. fits the renderable area (any page cap). -/
theorem arrangeGo_placed_valid (P : Page) :
    ∀ (l : List Token) (s : ArrangeState),
    (∀ pg ∈ s.pages, ∀ pl ∈ pg, P.tokenFits pl.2) →
    (∀ pl ∈ s.placements, P.tokenFits pl.2) →
    ∀ pages, P.arrangeGo s l = .ok pages →
    ∀ pg ∈ pages, ∀ pl ∈ pg, P.tokenFits pl.2 := by
  intro l
  induction l with
  | nil =>
    intro s hpages hcur pages hgo pg hpg
    rw [arrangeGo_nil] at hgo
    injection hgo with hgo
    subst hgo
    split at hpg
    · simp only [List.mem_append, List.mem_singleton] at hpg
      rcases hpg with hpg | hpg
      · exact hpages pg hpg
      · subst hpg
        exact hcur
    · exact hpages pg hpg
  | cons t rest ih =>
    intro s hpages hcur pages hgo pg hpg
    by_cases hfit : P.tokenFits t
    · by_cases hov : P.stepY s t + t.imageHeight > P.bottomMargin
      · by_cases hcap : P.maxPages = some (s.pages.length + 1)
        · rw [arrangeGo_cons_inl rest (arrangeStep_capped hfit hov hcap)] at hgo
          injection hgo with hgo
          subst hgo
          simp only [List.mem_append, List.mem_singleton] at hpg
          rcases hpg with hpg | hpg
          · exact hpages pg hpg
          · subst hpg
            exact hcur
        · rw [arrangeGo_cons_inr rest (arrangeStep_newPage hfit hov hcap)] at hgo
          refine ih (P.newPageState s t) ?_ ?_ pages hgo pg hpg
          · intro pg₂ hpg₂
            simp only [Page.newPageState, List.mem_append, List.mem_singleton] at hpg₂
            rcases hpg₂ with hpg₂ | hpg₂
            · exact hpages pg₂ hpg₂
            · subst hpg₂
              exact hcur
          · intro pl hpl
            rw [Page.newPageState, List.mem_singleton] at hpl
            subst hpl
            exact hfit
      · rw [arrangeGo_cons_inr rest (arrangeStep_place hfit hov)] at hgo
        refine ih (P.placeState s t) hpages ?_ pages hgo pg hpg
        intro pl hpl
        simp only [Page.placeState, List.mem_append, List.mem_singleton] at hpl
        rcases hpl with hpl | hpl
        · exact hcur pl hpl
        · subst hpl
          exact hfit
    · obtain ⟨e, he⟩ := arrangeStep_error s hfit
      rw [arrangeGo_cons_error rest he] at hgo
      exact absurd hgo (by simp)

/-- With no page cap, a stream containing a non-fitting instance makes
the arrange loop raise. -/
theorem arrangeGo_error_of_invalid (P : Page) (hcap : P.maxPages = none) :
    ∀ (l : List Token) (s : ArrangeState), (∃ u ∈ l, ¬ P.tokenFits u) →
    ∃ e, P.arrangeGo s l = .error e := by
  intro l
  induction l with
  | nil =>
    intro s h
    obtain ⟨u, hu, _⟩ := h
    exact absurd hu (by simp)
  | cons t rest ih =>
    intro s h
    by_cases hfit : P.tokenFits t
    · have hrest : ∃ u ∈ rest, ¬ P.tokenFits u := by
        obtain ⟨u, hu, hbig⟩ := h
        rcases List.mem_cons.mp hu with hu | hu
        · subst hu
          exact absurd hfit hbig
        · exact ⟨u, hu, hbig⟩
      by_cases hov : P.stepY s t + t.imageHeight > P.bottomMargin
      · have hc : ¬ P.maxPages = some (s.pages.length + 1) := by rw [hcap]; simp
        obtain ⟨e, he⟩ := ih (P.newPageState s t) hrest
        exact ⟨e, by rw [arrangeGo_cons_inr rest (arrangeStep_newPage hfit hov hc)]; exact he⟩
      · obtain ⟨e, he⟩ := ih (P.placeState s t) hrest
        exact ⟨e, by rw [arrangeGo_cons_inr rest (arrangeStep_place hfit hov)]; exact he⟩
    · obtain ⟨e, he⟩ := arrangeStep_error s hfit
      exact ⟨e, arrangeGo_cons_error rest he⟩

theorem mem_instanceStream_of_mem {P : Page} {tokens : List Token} {t : Token}
    (ht : t ∈ tokens) (hc : 1 ≤ t.copies) : t ∈ P.instanceStream tokens := by
  rw [(instanceStream_perm P tokens).mem_iff]
  rw [List.mem_flatMap]
  exact ⟨t, ht, List.mem_replicate.mpr ⟨by omega, rfl⟩⟩

/-- **C3 amended.** For any input token whose composite exceeds the
renderable width or height, `Page.arrange` never returns a layout
containing that token (for any page cap), and — with no page cap, for a
token with at least one copy as the data model requires — it raises the
sizing `ValueError` instead of returning, so no page is finalized.  (With
a cap, the early cap return of page.py 99-103 can fire before the
oversized token's size bucket is reached, in which case the capped pages
are returned normally with no error; see the counterexample below.) -/
theorem oversized_token_fails (P : Page) (tokens : List Token) (t : Token)
    (ht : t ∈ tokens)
    (hbig : ¬ P.tokenFits t) :
    (∀ pages, P.arrange tokens = .ok pages → ∀ pg ∈ pages, ∀ pl ∈ pg, pl.2 ≠ t) ∧
    (P.maxPages = none → 1 ≤ t.copies → ∃ e, P.arrange tokens = .error e) := by
  constructor
  · intro pages harr pg hpg pl hpl
    intro heq
    exact hbig (heq ▸ arrangeGo_placed_valid P (P.instanceStream tokens) P.initState
      (by simp [Page.initState]) (by simp [Page.initState]) pages harr pg hpg pl hpl)
  · intro hcap hc
    exact arrangeGo_error_of_invalid P hcap (P.instanceStream tokens) P.initState
      ⟨t, mem_instanceStream_of_mem ht hc, hbig⟩

/-- A 20-by-20-inch token: far larger than a letter page. -/
def tokenW3 : Token := Token.make "big.png" 20 20

theorem oversized_token_fails_witness :
    (tokenW3 ∈ [tokenW3] ∧ ¬ pageW1.tokenFits tokenW3 ∧
      pageW1.maxPages = none ∧ 1 ≤ tokenW3.copies) ∧
    ((∀ pages, pageW1.arrange [tokenW3] = .ok pages →
        ∀ pg ∈ pages, ∀ pl ∈ pg, pl.2 ≠ tokenW3) ∧
      (∃ e, pageW1.arrange [tokenW3] = .error e)) := by
  have h := oversized_token_fails pageW1 [tokenW3] tokenW3 (by simp) (by decide)
  exact ⟨⟨by simp, by decide, rfl, by decide⟩, h.1, h.2 rfl (by decide)⟩

/-- The inner fold of `Page.render` over one page appends one call per
placement, with consecutive counter values starting at the running
count. -/
theorem renderCalls_page_fold (pg : PageLayout) :
    ∀ (acc : List (Point × Token × ℕ)) (c : ℕ),
    pg.foldl (fun acc₂ pl => (acc₂.1 ++ [(pl.1, pl.2, acc₂.2)], acc₂.2 + 1))
        ((acc, c) : List (Point × Token × ℕ) × ℕ) =
      (acc ++ (List.enumFrom c pg).map (fun p => (p.2.1, p.2.2, p.1)), c + pg.length) := by
  induction pg with
  | nil => intro acc c; simp
  | cons pl rest ih =>
    intro acc c
    rw [List.foldl_cons, ih, List.enumFrom_cons]
    simp only [List.map_cons, List.length_cons]
    rw [Prod.mk.injEq]
    exact ⟨by simp, by omega⟩

/-- The outer fold of `Page.render` over all pages enumerates the flattened
arrangement with a single global counter. -/
theorem renderCalls_pages_fold (pgs : List PageLayout) :
    ∀ (acc : List (Point × Token × ℕ)) (c : ℕ),
    pgs.foldl
        (fun acc₂ pageArrangement =>
          pageArrangement.foldl
            (fun acc₃ pl => (acc₃.1 ++ [(pl.1, pl.2, acc₃.2)], acc₃.2 + 1)) acc₂)
        ((acc, c) : List (Point × Token × ℕ) × ℕ) =
      (acc ++ (List.enumFrom c pgs.flatten).map (fun p => (p.2.1, p.2.2, p.1)),
        c + pgs.flatten.length) := by
  induction pgs with
  | nil => intro acc c; simp
  | cons pg rest ih =>
    intro acc c
    rw [List.foldl_cons, renderCalls_page_fold, ih]
    simp only [List.flatten_cons, List.enumFrom_append, List.map_append,
      List.length_append, List.append_assoc]
    rw [Prod.mk.injEq]
    exact ⟨rfl, by omega⟩

/-- **C10.** The `token_index` `Page.render` passes to `Token.to_image`
for each placement is the number of instances rendered before it across
the entire document: the call sequence is the flattened arrangement
enumerated by a single global counter (page-major order), not a per-spec
copy index. -/
theorem render_token_index_is_global (P : Page) (tokens : List Token)
    (arrangement : List PageLayout)
    (harr : P.arrange tokens = .ok arrangement) :
    P.renderCalls tokens =
      .ok (arrangement.flatten.enum.map (fun p => (p.2.1, p.2.2, p.1))) := by
  unfold Page.renderCalls
  rw [harr]
  show Except.ok (arrangement.foldl
      (fun acc pageArrangement =>
        pageArrangement.foldl
          (fun acc₂ pl => (acc₂.1 ++ [(pl.1, pl.2, acc₂.2)], acc₂.2 + 1)) acc)
      (([], 0) : List (Point × Token × ℕ) × ℕ)).1 = _
  rw [renderCalls_pages_fold arrangement [] 0, List.enum_eq_enumFrom]
  simp

theorem except_toOption_ok {ε α : Type} {x : Except ε α} {a : α}
    (h : x.toOption = some a) : x = .ok a := by
  cases x with
  | error e => exact absurd h (by simp [Except.toOption])
  | ok b =>
    simp only [Except.toOption, Option.some.injEq] at h
    rw [h]

/-- The single-page arrangement `pageC2.arrange [tokenC2a, tokenC2b]`
produces. -/
def arrangementW10 : List PageLayout :=
  [[(⟨0, 0⟩, tokenC2a), (⟨1, 0⟩, tokenC2a),
    (⟨0, 1/2⟩, tokenC2b), (⟨1, 1/2⟩, tokenC2b), (⟨0, 1⟩, tokenC2b)]]

theorem render_token_index_is_global_witness :
    pageC2.arrange [tokenC2a, tokenC2b] = .ok arrangementW10 ∧
    pageC2.renderCalls [tokenC2a, tokenC2b] =
      .ok (arrangementW10.flatten.enum.map (fun p => (p.2.1, p.2.2, p.1))) := by
  have harr : pageC2.arrange [tokenC2a, tokenC2b] = .ok arrangementW10 :=
    except_toOption_ok (by decide)
  exact ⟨harr, render_token_index_is_global pageC2 [tokenC2a, tokenC2b] arrangementW10 harr⟩

/-! ### The token groups are keyed buckets of the input, in input order -/

theorem groupInsert_keys (gs : List ((ℤ × ℤ) × List Token)) (key : ℤ × ℤ) (u : Token) :
    (groupInsert gs key u).map Prod.fst =
      if key ∈ gs.map Prod.fst then gs.map Prod.fst else gs.map Prod.fst ++ [key] := by
  induction gs with
  | nil => simp [groupInsert]
  | cons kg rest ih =>
    obtain ⟨k, g⟩ := kg
    by_cases hk : k = key
    · subst hk
      simp [groupInsert]
    · simp only [groupInsert, if_neg hk, List.map_cons, ih]
      by_cases hmem : key ∈ rest.map Prod.fst
      · rw [if_pos hmem, if_pos (by simp [hmem])]
      · rw [if_neg hmem, if_neg ?_]
        · simp
        · simp only [List.map_cons, List.mem_cons]
          rintro (hx | hx)
          · exact hk hx.symm
          · exact hmem hx

theorem mem_groupInsert {gs : List ((ℤ × ℤ) × List Token)} {key : ℤ × ℤ} {u : Token}
    (hnd : (gs.map Prod.fst).Nodup) {k : ℤ × ℤ} {g : List Token}
    (h : (k, g) ∈ groupInsert gs key u) :
    ((k, g) ∈ gs ∧ k ≠ key) ∨
      (k = key ∧ ∃ g₀, (key, g₀) ∈ gs ∧ g = g₀ ++ [u]) ∨
      (k = key ∧ key ∉ gs.map Prod.fst ∧ g = [u]) := by
  induction gs with
  | nil =>
    simp only [groupInsert, List.mem_singleton, Prod.mk.injEq] at h
    exact Or.inr (Or.inr ⟨h.1, by simp, h.2⟩)
  | cons kg rest ih =>
    obtain ⟨k₁, g₁⟩ := kg
    rw [List.map_cons, List.nodup_cons] at hnd
    by_cases hk : k₁ = key
    · subst hk
      rw [groupInsert, if_pos rfl] at h
      rcases List.mem_cons.mp h with h | h
      · rw [Prod.mk.injEq] at h
        exact Or.inr (Or.inl ⟨h.1, g₁, List.mem_cons_self _ _, h.2⟩)
      · left
        refine ⟨List.mem_cons_of_mem _ h, ?_⟩
        intro hkk
        apply hnd.1
        have hm : (k, g).1 ∈ rest.map Prod.fst := List.mem_map_of_mem Prod.fst h
        rwa [hkk] at hm
    · rw [groupInsert, if_neg hk] at h
      rcases List.mem_cons.mp h with h | h
      · rw [Prod.mk.injEq] at h
        left
        refine ⟨by rw [h.1, h.2]; exact List.mem_cons_self _ _, ?_⟩
        rw [h.1]
        exact hk
      · rcases ih hnd.2 h with ⟨hmem, hne⟩ | ⟨hke, g₀, hg₀, hg⟩ | ⟨hke, hnot, hg⟩
        · exact Or.inl ⟨List.mem_cons_of_mem _ hmem, hne⟩
        · exact Or.inr (Or.inl ⟨hke, g₀, List.mem_cons_of_mem _ hg₀, hg⟩)
        · refine Or.inr (Or.inr ⟨hke, ?_, hg⟩)
          simp only [List.map_cons, List.mem_cons]
          rintro (hx | hx)
          · exact hk hx.symm
          · exact hnot hx

/-- What the grouping loop of `Page.arrange` guarantees: distinct keys,
each key's group being the input-order sublist of tokens in that 0.01-inch
bucket, and the keys being exactly the buckets of the input. -/
structure GroupsSpec (P : Page) (l : List Token)
    (gs : List ((ℤ × ℤ) × List Token)) : Prop where
  nodup : (gs.map Prod.fst).Nodup
  content : ∀ kg ∈ gs,
    kg.2 = l.filter (fun t => decide (P.tokenImageSizeOrdinal t = kg.1))
  keysSound : ∀ kg ∈ gs, ∃ t ∈ l, P.tokenImageSizeOrdinal t = kg.1
  keysComplete : ∀ t ∈ l, P.tokenImageSizeOrdinal t ∈ gs.map Prod.fst

theorem groupInsert_keys_subset (gs : List ((ℤ × ℤ) × List Token)) (key : ℤ × ℤ)
    (u : Token) :
    gs.map Prod.fst ⊆ (groupInsert gs key u).map Prod.fst ∧
      key ∈ (groupInsert gs key u).map Prod.fst := by
  rw [groupInsert_keys]
  by_cases hmem : key ∈ gs.map Prod.fst
  · rw [if_pos hmem]
    exact ⟨fun a ha => ha, hmem⟩
  · rw [if_neg hmem]
    exact ⟨fun a ha => List.mem_append_left _ ha, List.mem_append_right _ (by simp)⟩

theorem groupsSpec_insert {P : Page} {l : List Token}
    {gs : List ((ℤ × ℤ) × List Token)} (hs : GroupsSpec P l gs) (u : Token) :
    GroupsSpec P (l ++ [u]) (groupInsert gs (P.tokenImageSizeOrdinal u) u) := by
  refine ⟨?_, ?_, ?_, ?_⟩
  · rw [groupInsert_keys]
    by_cases hmem : P.tokenImageSizeOrdinal u ∈ gs.map Prod.fst
    · rw [if_pos hmem]
      exact hs.nodup
    · rw [if_neg hmem]
      simpa using List.Nodup.concat hmem hs.nodup
  · intro kg hmem
    obtain ⟨k, g⟩ := kg
    rw [List.filter_append]
    rcases mem_groupInsert hs.nodup hmem with ⟨hmem₀, hne⟩ | ⟨hke, g₀, hg₀, hg⟩ |
      ⟨hke, hfresh, hg⟩
    · have hu : (List.filter (fun t => decide (P.tokenImageSizeOrdinal t = k)) [u]) = [] := by
        simp only [List.filter_cons, List.filter_nil]
        rw [if_neg]
        simp only [decide_eq_true_eq]
        intro hx
        exact hne (hx ▸ rfl)
      rw [show ((k, g) : (ℤ × ℤ) × List Token).2 = g from rfl] at *
      rw [hu, List.append_nil]
      exact hs.content (k, g) hmem₀
    · subst hke
      have hu : (List.filter
          (fun t => decide (P.tokenImageSizeOrdinal t = P.tokenImageSizeOrdinal u)) [u]) = [u] := by
        simp
      rw [show ((P.tokenImageSizeOrdinal u, g) : (ℤ × ℤ) × List Token).2 = g from rfl]
      rw [show ((P.tokenImageSizeOrdinal u, g) : (ℤ × ℤ) × List Token).1 =
        P.tokenImageSizeOrdinal u from rfl]
      rw [hu, hg]
      have hgc := hs.content (P.tokenImageSizeOrdinal u, g₀) hg₀
      simp only at hgc
      rw [hgc]
    · subst hke
      have hl : (List.filter
          (fun t => decide (P.tokenImageSizeOrdinal t = P.tokenImageSizeOrdinal u)) l) = [] := by
        rw [List.filter_eq_nil_iff]
        intro t ht
        simp only [decide_eq_true_eq]
        intro hx
        exact hfresh (hx ▸ hs.keysComplete t ht)
      rw [show ((P.tokenImageSizeOrdinal u, g) : (ℤ × ℤ) × List Token).2 = g from rfl]
      rw [show ((P.tokenImageSizeOrdinal u, g) : (ℤ × ℤ) × List Token).1 =
        P.tokenImageSizeOrdinal u from rfl]
      rw [hl, hg]
      simp
  · intro kg hmem
    obtain ⟨k, g⟩ := kg
    rcases mem_groupInsert hs.nodup hmem with ⟨hmem₀, _⟩ | ⟨hke, _⟩ | ⟨hke, _⟩
    · obtain ⟨t, ht, hord⟩ := hs.keysSound (k, g) hmem₀
      exact ⟨t, List.mem_append_left _ ht, hord⟩
    · exact ⟨u, List.mem_append_right _ (by simp), hke.symm⟩
    · exact ⟨u, List.mem_append_right _ (by simp), hke.symm⟩
  · intro t ht
    rcases List.mem_append.mp ht with ht | ht
    · exact (groupInsert_keys_subset gs _ u).1 (hs.keysComplete t ht)
    · rw [List.mem_singleton] at ht
      subst ht
      exact (groupInsert_keys_subset gs _ t).2

/-- The grouping loop of `Page.arrange` (page.py 78-83) satisfies
`GroupsSpec`. -/
theorem tokenGroups_spec (P : Page) (l : List Token) :
    GroupsSpec P l (P.tokenGroups l) := by
  induction l using List.reverseRecOn with
  | nil =>
    refine ⟨?_, ?_, ?_, ?_⟩ <;> simp [Page.tokenGroups]
  | append_singleton l u ih =>
    rw [tokenGroups_append]
    exact groupsSpec_insert ih u

theorem sortedTokenGroups_sorted (P : Page) (tokens : List Token) :
    List.Sorted groupLE (P.sortedTokenGroups tokens) :=
  List.sorted_insertionSort groupLE (P.tokenGroups tokens)

theorem ordLT_of_ordLE_ne {a b : ℤ × ℤ} (hle : ordLE a b) (hne : a ≠ b) :
    ordLT a b := by
  rcases hle with h | ⟨h1, h2⟩
  · exact Or.inl h
  · right
    refine ⟨h1, lt_of_le_of_ne h2 ?_⟩
    intro h3
    exact hne (Prod.ext h1 h3)

theorem flatMap_congr_mem {α β : Type} {l : List α} {f g : α → List β}
    (h : ∀ a ∈ l, f a = g a) : l.flatMap f = l.flatMap g := by
  induction l with
  | nil => rfl
  | cons a rest ih =>
    rw [List.flatMap_cons, List.flatMap_cons, h a (by simp),
      ih (fun b hb => h b (by simp [hb]))]

/-- **C5.** With no page cap and fitting tokens, `Page.arrange` places
instances grouped by the quantized (height-bucket, width-bucket) key at
0.01-inch granularity, the keys iterated in strictly ascending
lexicographic order (height first, then width) so smaller buckets come
first; within a group, tokens keep their input order (the input filtered
to that bucket) and each spec's copies are consumed consecutively. -/
theorem arrange_processes_sizes_ascending (P : Page) (tokens : List Token)
    (hcap : P.maxPages = none)
    (hfit : ∀ t ∈ tokens, P.tokenFits t) :
    ∃ (pages : List PageLayout) (keys : List (ℤ × ℤ)),
      P.arrange tokens = .ok pages ∧
      keys.Pairwise ordLT ∧
      (∀ t ∈ tokens, P.tokenImageSizeOrdinal t ∈ keys) ∧
      (∀ k ∈ keys, ∃ t ∈ tokens, P.tokenImageSizeOrdinal t = k) ∧
      pages.flatten.map Prod.snd =
        keys.flatMap (fun k =>
          (tokens.filter (fun t => decide (P.tokenImageSizeOrdinal t = k))).flatMap
            (fun t => List.replicate t.copies t)) := by
  obtain ⟨pages, harr, hmap⟩ := arrange_ok_of_valid P tokens hcap hfit
  refine ⟨pages, (P.sortedTokenGroups tokens).map Prod.fst, harr, ?_, ?_, ?_, ?_⟩
  · have hsorted : List.Pairwise groupLE (P.sortedTokenGroups tokens) :=
      sortedTokenGroups_sorted P tokens
    have hLE : ((P.sortedTokenGroups tokens).map Prod.fst).Pairwise ordLE :=
      List.pairwise_map.mpr (hsorted.imp (fun h => h))
    have hnd : ((P.sortedTokenGroups tokens).map Prod.fst).Nodup :=
      ((sortedTokenGroups_perm P tokens).map Prod.fst).nodup_iff.mpr
        (tokenGroups_spec P tokens).nodup
    exact (hLE.and hnd).imp (fun h => ordLT_of_ordLE_ne h.1 h.2)
  · intro t ht
    exact ((sortedTokenGroups_perm P tokens).map Prod.fst).mem_iff.mpr
      ((tokenGroups_spec P tokens).keysComplete t ht)
  · intro k hk
    have hk₂ : k ∈ (P.tokenGroups tokens).map Prod.fst :=
      ((sortedTokenGroups_perm P tokens).map Prod.fst).mem_iff.mp hk
    obtain ⟨kg, hkg, hfst⟩ := List.mem_map.mp hk₂
    obtain ⟨t, ht, hord⟩ := (tokenGroups_spec P tokens).keysSound kg hkg
    exact ⟨t, ht, by rw [hord, hfst]⟩
  · rw [hmap]
    unfold Page.instanceStream
    rw [List.flatMap_map]
    apply flatMap_congr_mem
    intro kg hkg
    have hmem : kg ∈ P.tokenGroups tokens :=
      (sortedTokenGroups_perm P tokens).mem_iff.mp hkg
    rw [← (tokenGroups_spec P tokens).content kg hmem]

theorem arrange_processes_sizes_ascending_witness :
    (pageW1.maxPages = none ∧ ∀ t ∈ tokensW1, pageW1.tokenFits t) ∧
    (∃ (pages : List PageLayout) (keys : List (ℤ × ℤ)),
      pageW1.arrange tokensW1 = .ok pages ∧
      keys.Pairwise ordLT ∧
      (∀ t ∈ tokensW1, pageW1.tokenImageSizeOrdinal t ∈ keys) ∧
      (∀ k ∈ keys, ∃ t ∈ tokensW1, pageW1.tokenImageSizeOrdinal t = k) ∧
      pages.flatten.map Prod.snd =
        keys.flatMap (fun k =>
          (tokensW1.filter (fun t => decide (pageW1.tokenImageSizeOrdinal t = k))).flatMap
            (fun t => List.replicate t.copies t))) :=
  ⟨⟨rfl, by decide⟩,
    arrange_processes_sizes_ascending pageW1 tokensW1 rfl (by decide)⟩

/-- **C4.** When a max page count `m ≥ 1` is configured and the same
input needs more than `m` pages without a cap, `Page.arrange` returns
normally (no exception) with exactly `m` pages — the first `m` pages of
the uncapped arrangement, i.e. only the instances placed before the cap
was reached; the rest are dropped, non-fatally. -/
theorem arrange_cap_truncates (P : Page) (tokens : List Token) (m : ℕ)
    (hcap : P.maxPages = none) (hm : 1 ≤ m)
    (A : List PageLayout) (hA : P.arrange tokens = .ok A) (hlen : m < A.length) :
    ({ P with maxPages := some m } : Page).arrange tokens = .ok (A.take m) ∧
      (A.take m).length = m := by
  have h := arrangeGo_capped P hcap m (P.instanceStream tokens) P.initState A
    (by simp [Page.initState]; omega) hA
  rw [if_pos hlen] at h
  refine ⟨h, ?_⟩
  rw [List.length_take]
  omega

/-- A 2-by-1-point page with no margin and no cap. -/
def pageC4 : Page := { dpi := 400, pagesize := (2, 1), pageMargin := 0, maxPages := none }

/-- A 1-by-1 composite, three copies: two fit on a `pageC4` page, the
third needs a second page. -/
def tokenC4 : Token :=
  { frontImagePath := "c.png", backImagePath := none, height := 1/2, width := 1,
    bottomMargin := 0, borderThickness := 0, mirrorBack := false, copies := 3,
    borderColors := .inl (255, 255, 255), backgroundColors := .inl (0, 0, 0),
    backgroundImagePaths := none }

/-- The two-page uncapped arrangement of `[tokenC4]` on `pageC4`. -/
def arrangementC4 : List PageLayout :=
  [[(⟨0, 0⟩, tokenC4), (⟨1, 0⟩, tokenC4)], [(⟨0, 0⟩, tokenC4)]]

theorem arrange_cap_truncates_witness :
    (pageC4.maxPages = none ∧ 1 ≤ 1 ∧
      pageC4.arrange [tokenC4] = .ok arrangementC4 ∧ 1 < arrangementC4.length) ∧
    (({ pageC4 with maxPages := some 1 } : Page).arrange [tokenC4] =
        .ok (arrangementC4.take 1) ∧
      (arrangementC4.take 1).length = 1) := by
  have hA : pageC4.arrange [tokenC4] = .ok arrangementC4 :=
    except_toOption_ok (by decide)
  exact ⟨⟨rfl, le_refl 1, hA, by decide⟩,
    arrange_cap_truncates pageC4 [tokenC4] 1 rfl (le_refl 1) arrangementC4 hA (by decide)⟩


/-- A 2-by-1-point page with no margin and a max-page cap of 1. -/
def pageC3 : Page := { dpi := 400, pagesize := (2, 1), pageMargin := 0, maxPages := some 1 }

/-- A 3-point-wide composite: wider than `pageC3`'s renderable width,
and in a larger 0.01-inch size bucket than `tokenC4`. -/
def tokenC3big : Token :=
  { frontImagePath := "huge.png", backImagePath := none, height := 1/2, width := 3,
    bottomMargin := 0, borderThickness := 0, mirrorBack := false, copies := 1,
    borderColors := .inl (255, 255, 255), backgroundColors := .inl (0, 0, 0),
    backgroundImagePaths := none }

/-- **C3 counterexample.** With the max-page cap of `pageC3` set to 1,
the input holding three copies of the fitting `tokenC4` followed (in
size-bucket order) by the oversized `tokenC3big` makes `Page.arrange`
return a finalized page normally: the cap return (page.py 99-103) fires
while the smaller bucket is still being processed, before the oversized
token is ever validated (page.py 95), so no sizing error is raised even
though an oversized token with a positive copy count is in the input. -/
theorem oversized_token_capped_no_error_counterexample :
    (¬ pageC3.tokenFits tokenC3big ∧ tokenC3big ∈ [tokenC4, tokenC3big] ∧
      1 ≤ tokenC3big.copies) ∧
    pageC3.arrange [tokenC4, tokenC3big] =
      .ok [[(⟨0, 0⟩, tokenC4), (⟨1, 0⟩, tokenC4)]] :=
  ⟨⟨by decide, by decide, by decide⟩, except_toOption_ok (by decide)⟩
end ConcreteEvaluation
